import Mathlib

/-!
# Paginated collector: cursor-based paginated collection

Shallow embedding of the pagination loop of
`src/Youtube Data Exploration/Youtube Data Scraper.py`:

```python
video_ids = []
next_page_token = None
while True:
    playlistitems_response = youtube.playlistItems().list(...,
        pageToken=next_page_token).execute()
    for item in playlistitems_response['items']:
        video_ids.append(item['contentDetails']['videoId'])
    next_page_token = playlistitems_response.get('nextPageToken')
    if not next_page_token:
        break
```

A response page carries an ordered list of item identifiers and an optional
continuation token (`response.get('nextPageToken')` yields `None` or a
string).  The remote listing call is modelled as a pure capability from the
optional token passed as `pageToken` to either a page or an upstream failure
(`.execute()` raising).  The unbounded `while True` loop is modelled with
explicit fuel: a `none` result means the fuel ran out, so a run that yields
`none` for every fuel is a non-terminating run.  Alongside the accumulated
identifiers the embedding records the exact sequence of tokens passed to the
capability, one entry per call, so that call counts and call ordering are
part of the observable behaviour.
-/

set_option autoImplicit false

namespace PaginatedCollector

/-- One response page: an ordered sequence of item identifiers and the value of
`response.get('nextPageToken')` (`none` when the key is absent). -/
structure Page where
  items : List String
  nextPageToken : Option String
deriving DecidableEq, Repr

/-- Upstream failure while fetching a page (`.execute()` raising): network,
authentication, or malformed-response errors are not distinguished by the
loop, which has no handler and lets any exception propagate. -/
inductive UpstreamError where
  | upstream
deriving DecidableEq, Repr

/-- The listing capability: given the optional `pageToken` argument, return one
page or fail.  In the source this is
`youtube.playlistItems().list(..., pageToken=next_page_token).execute()`. -/
def Cap : Type := Option String → Except UpstreamError Page

/-- Python truthiness test `if not next_page_token` on the value of
`response.get('nextPageToken')`: `None` and the empty string are falsy, every
other string is truthy. -/
def tokenFalsy : Option String → Bool
  | none => true
  | some t => t = ""

deriving instance DecidableEq for Except

/-- Observable outcome of one run of the loop: the sequence of tokens passed to
the capability (one entry per call, in call order) and either the accumulated
identifier list or the propagated upstream error. -/
structure RunResult where
  callTokens : List (Option String)
  outcome : Except UpstreamError (List String)
deriving DecidableEq, Repr

/-- The loop body, fuelled.  `tok` is the current `next_page_token`, `acc` the
`video_ids` accumulator, `calls` the tokens passed so far.  Each iteration
calls the capability with `tok`; on failure the error propagates at once and
the accumulator is lost; on success the page's identifiers are appended and
the loop breaks iff the new token is falsy (`if not next_page_token: break`).
A `none` result means the fuel was exhausted before the loop broke. -/
def collectAux (cap : Cap) : Nat → Option String → List String →
    List (Option String) → Option RunResult
  | 0, _, _, _ => none
  | fuel + 1, tok, acc, calls =>
    match cap tok with
    | .error e => some ⟨calls ++ [tok], .error e⟩
    | .ok page =>
      let acc2 := acc ++ page.items
      if tokenFalsy page.nextPageToken then
        some ⟨calls ++ [tok], .ok acc2⟩
      else
        collectAux cap fuel page.nextPageToken acc2 (calls ++ [tok])

/-- One full run: fresh empty accumulator, first call with no token
(`next_page_token = None` before the loop). -/
def collect (cap : Cap) (fuel : Nat) : Option RunResult :=
  collectAux cap fuel none [] []

/-- `Serves cap tok pages`: starting from token `tok`, the capability serves
exactly the pages of `pages` along the token chain — the call with `tok`
returns the head page, and each later call with the previous page's token
returns the next page. -/
def Serves (cap : Cap) : Option String → List Page → Prop
  | _, [] => True
  | tok, p :: rest => cap tok = .ok p ∧ Serves cap p.nextPageToken rest

/-- The token reached after following the chain of `nextPageToken`s through a
list of pages, starting from `tok`. -/
def chainEnd (tok : Option String) : List Page → Option String
  | [] => tok
  | p :: rest => chainEnd p.nextPageToken rest

/-- A never-failing capability lifted into `Cap`. -/
def okCap (cap : Option String → Page) : Cap := fun tok => .ok (cap tok)

/-- A run of the loop against a never-failing capability. -/
def collectTotal (cap : Option String → Page) (fuel : Nat) : Option RunResult :=
  collect (okCap cap) fuel

/-- The page a never-failing capability returns on the k-th call when the run
starts from token `tok` (0-indexed). -/
def orbitFrom (cap : Option String → Page) (tok : Option String) : Nat → Page
  | 0 => cap tok
  | k + 1 => cap (orbitFrom cap tok k).nextPageToken

/-- The page a never-failing capability returns on the k-th call of a full run
(first call with no token). -/
def orbitPage (cap : Option String → Page) : Nat → Page :=
  orbitFrom cap none

/-- The step relation between consecutive call tokens of one run: a call with
`t` received a page with a truthy continuation token, and that token is the
next call's `pageToken`. -/
def stepRel (cap : Cap) (t t2 : Option String) : Prop :=
  ∃ p, cap t = .ok p ∧ tokenFalsy p.nextPageToken = false ∧ t2 = p.nextPageToken

/-! ### Concrete capabilities used to evaluate the model on closed inputs -/

/-- The spec's two-page scenario: first page `{items:["a","b"], token:"t1"}`,
second page `{items:["c"], token:None}`. -/
def specCap2 : Cap := fun tok =>
  match tok with
  | none => .ok ⟨["a", "b"], some "t1"⟩
  | some _ => .ok ⟨["c"], none⟩

/-- A capability serving the same two pages as `specCap2` along the token
chain, but failing on any other token (so it differs from `specCap2` as a
function). -/
def specCap2b : Cap := fun tok =>
  match tok with
  | none => .ok ⟨["a", "b"], some "t1"⟩
  | some "t1" => .ok ⟨["c"], none⟩
  | some _ => .error .upstream

/-- First page carries the continuation token `""` (present but empty), second
page carries none. -/
def capEmptyTok : Cap := fun tok =>
  match tok with
  | none => .ok ⟨["a"], some ""⟩
  | some _ => .ok ⟨["b"], none⟩

/-- A never-failing capability that answers every call with an empty page
whose continuation token is the (present) empty string. -/
def capConstEmpty : Option String → Page := fun _ => ⟨[], some ""⟩

/-- A single empty page with no continuation token. -/
def capSingleEmpty : Cap := fun _ => .ok ⟨[], none⟩

/-- First call succeeds with a truthy token, the second call fails. -/
def capErrSecond : Cap := fun tok =>
  match tok with
  | none => .ok ⟨["a"], some "t"⟩
  | some _ => .error .upstream

/-- Two pages both containing the identifier `"abc"`. -/
def capAbc : Cap := fun tok =>
  match tok with
  | none => .ok ⟨["abc", "x"], some "t"⟩
  | some _ => .ok ⟨["abc"], none⟩

/-- One page whose continuation token is the present-but-empty string. -/
def capNineEmpty : Cap := fun _ => .ok ⟨["x"], some ""⟩

/-- One page with the same items as `capNineEmpty`'s page but no token. -/
def capNineNone : Cap := fun _ => .ok ⟨["x"], none⟩

/-! ### Helper lemmas -/

/-- One-step unfolding of the loop body. -/
theorem collectAux_succ (cap : Cap) (fuel : Nat) (tok : Option String)
    (acc : List String) (calls : List (Option String)) :
    collectAux cap (fuel + 1) tok acc calls =
      match cap tok with
      | .error e => some ⟨calls ++ [tok], .error e⟩
      | .ok page =>
        if tokenFalsy page.nextPageToken then
          some ⟨calls ++ [tok], .ok (acc ++ page.items)⟩
        else
          collectAux cap fuel page.nextPageToken (acc ++ page.items)
            (calls ++ [tok]) := rfl

/-- The accumulator and the call log are write-only: a run from any `acc` and
`calls` is the run from the fresh state with `acc` and `calls` prepended. -/
theorem collectAux_acc (cap : Cap) (fuel : Nat) :
    ∀ (tok : Option String) (acc : List String) (calls : List (Option String)),
    collectAux cap fuel tok acc calls =
      (collectAux cap fuel tok [] []).map fun r =>
        ⟨calls ++ r.callTokens, r.outcome.map fun l => acc ++ l⟩ := by
  induction fuel with
  | zero => intro tok acc calls; rfl
  | succ fuel ih =>
    intro tok acc calls
    simp only [collectAux]
    cases hc : cap tok with
    | error e => simp [Except.map]
    | ok page =>
      cases hf : tokenFalsy page.nextPageToken with
      | true => simp [hf, Except.map]
      | false =>
        simp only [hf, Bool.false_eq_true, if_false]
        rw [ih page.nextPageToken (acc ++ page.items) (calls ++ [tok]),
          ih page.nextPageToken ([] ++ page.items) ([] ++ [tok])]
        cases h2 : collectAux cap fuel page.nextPageToken [] [] with
        | none => rfl
        | some r =>
          cases r with
          | mk calls2 outcome =>
            cases outcome <;> simp [Except.map, List.append_assoc]

/-- Workhorse for successful runs: if the capability serves a chain of pages
whose last token is falsy and all earlier tokens are truthy, the run calls the
capability once per page, passing `none` then each page's token, and returns
the concatenation of all pages' identifiers. -/
theorem collectAux_serves_run (cap : Cap) (lastP : Page)
    (hl : tokenFalsy lastP.nextPageToken = true) :
    ∀ (front : List Page) (tok : Option String) (fuel : Nat),
    Serves cap tok (front ++ [lastP]) →
    (∀ p ∈ front, tokenFalsy p.nextPageToken = false) →
    front.length + 1 ≤ fuel →
    collectAux cap fuel tok [] [] =
      some ⟨tok :: front.map Page.nextPageToken,
        .ok ((front ++ [lastP]).map Page.items).flatten⟩ := by
  intro front
  induction front with
  | nil =>
    intro tok fuel hs _ hfuel
    obtain ⟨f, rfl⟩ : ∃ f, fuel = f + 1 := ⟨fuel - 1, by omega⟩
    obtain ⟨hcap, -⟩ := hs
    simp [collectAux, hcap, hl]
  | cons p front ih =>
    intro tok fuel hs hf hfuel
    obtain ⟨f, rfl⟩ : ∃ f, fuel = f + 1 := ⟨fuel - 1, by omega⟩
    obtain ⟨hcap, hrest⟩ := hs
    have hp : tokenFalsy p.nextPageToken = false := hf p (List.mem_cons_self p front)
    simp only [collectAux, hcap, hp, Bool.false_eq_true, if_false]
    rw [collectAux_acc,
      ih p.nextPageToken f hrest (fun q hq => hf q (List.mem_cons_of_mem p hq))
        (by simpa using Nat.le_of_succ_le_succ hfuel)]
    simp [Except.map]

/-- Workhorse for failing runs: if the capability serves a chain of truthy
pages and then fails, the error propagates at once, the call log records one
call per page plus the failing call, and no identifiers are surfaced. -/
theorem collectAux_error_run (cap : Cap) (e : UpstreamError) :
    ∀ (front : List Page) (tok : Option String) (fuel : Nat),
    Serves cap tok front →
    (∀ p ∈ front, tokenFalsy p.nextPageToken = false) →
    cap (chainEnd tok front) = .error e →
    front.length + 1 ≤ fuel →
    collectAux cap fuel tok [] [] =
      some ⟨tok :: front.map Page.nextPageToken, .error e⟩ := by
  intro front
  induction front with
  | nil =>
    intro tok fuel _ _ herr hfuel
    obtain ⟨f, rfl⟩ : ∃ f, fuel = f + 1 := ⟨fuel - 1, by omega⟩
    simp only [chainEnd] at herr
    simp [collectAux, herr]
  | cons p front ih =>
    intro tok fuel hs hf herr hfuel
    obtain ⟨f, rfl⟩ : ∃ f, fuel = f + 1 := ⟨fuel - 1, by omega⟩
    obtain ⟨hcap, hrest⟩ := hs
    have hp : tokenFalsy p.nextPageToken = false := hf p (List.mem_cons_self p front)
    simp only [collectAux, hcap, hp, Bool.false_eq_true, if_false]
    rw [collectAux_acc,
      ih p.nextPageToken f hrest (fun q hq => hf q (List.mem_cons_of_mem p hq))
        herr (by simpa using Nat.le_of_succ_le_succ hfuel)]
    simp [Except.map]

/-- Shape of every completed run: the call log is nonempty, starts with the
initial token, consecutive call tokens are linked by `stepRel` (each later call
passes the truthy token of the page the previous call received), and the final
call either failed (propagating its error) or received a page with a falsy
token (ending the run with the accumulated identifiers). -/
theorem collectAux_shape (cap : Cap) :
    ∀ (fuel : Nat) (tok : Option String) (r : RunResult),
    collectAux cap fuel tok [] [] = some r →
    r.callTokens ≠ [] ∧
    r.callTokens.head? = some tok ∧
    List.Chain' (stepRel cap) r.callTokens ∧
    ∃ lastTok, r.callTokens.getLast? = some lastTok ∧
      ((∃ e, cap lastTok = .error e ∧ r.outcome = .error e) ∨
       (∃ p, cap lastTok = .ok p ∧ tokenFalsy p.nextPageToken = true ∧
        ∃ l, r.outcome = .ok l)) := by
  intro fuel
  induction fuel with
  | zero => intro tok r h; exact absurd h (by simp [collectAux])
  | succ fuel ih =>
    intro tok r h
    simp only [collectAux] at h
    cases hc : cap tok with
    | error e =>
      simp only [hc] at h
      obtain rfl : RunResult.mk [tok] (.error e) = r := by
        simpa using h
      refine ⟨by simp, by simp, by simp, tok, by simp, .inl ⟨e, hc, rfl⟩⟩
    | ok page =>
      cases hf : tokenFalsy page.nextPageToken with
      | true =>
        simp only [hc, hf, if_true] at h
        obtain rfl : RunResult.mk [tok] (.ok ([] ++ page.items)) = r := by
          simpa using h
        exact ⟨by simp, by simp, by simp, tok, by simp,
          .inr ⟨page, hc, hf, [] ++ page.items, rfl⟩⟩
      | false =>
        simp only [hc, hf, Bool.false_eq_true, if_false] at h
        rw [collectAux_acc] at h
        cases h2 : collectAux cap fuel page.nextPageToken [] [] with
        | none => rw [h2] at h; exact absurd h (by simp)
        | some r0 =>
          rw [h2] at h
          obtain rfl : RunResult.mk ([tok] ++ r0.callTokens)
              (r0.outcome.map fun l => page.items ++ l) = r := by
            simpa using h
          obtain ⟨hne, hhead, hchain, lastTok, hlast, hdisj⟩ := ih page.nextPageToken r0 h2
          obtain ⟨t0, ts, hts⟩ := List.exists_cons_of_ne_nil hne
          refine ⟨by simp, by simp, ?_, lastTok, ?_, ?_⟩
          · refine List.Chain'.cons' hchain ?_
            intro y hy
            have hy2 : r0.callTokens.head? = some y := hy
            rw [hhead] at hy2
            obtain rfl : page.nextPageToken = y := by simpa using hy2
            exact ⟨page, hc, hf, rfl⟩
          · rw [hts]
            rw [hts] at hlast
            simpa using hlast
          · rcases hdisj with ⟨e, hce, ho⟩ | ⟨p, hcp, hfp, l, ho⟩
            · exact .inl ⟨e, hce, by simp [ho, Except.map]⟩
            · exact .inr ⟨p, hcp, hfp, page.items ++ l, by simp [ho, Except.map]⟩

/-- Following the token chain one step commutes with starting the orbit one
page later. -/
theorem orbitFrom_succ_shift (cap : Option String → Page) (tok : Option String) :
    ∀ k, orbitFrom cap tok (k + 1) = orbitFrom cap (cap tok).nextPageToken k := by
  intro k
  induction k with
  | zero => rfl
  | succ k ih =>
    show cap (orbitFrom cap tok (k + 1)).nextPageToken =
      cap (orbitFrom cap (cap tok).nextPageToken k).nextPageToken
    rw [ih]

/-- Against a never-failing capability, a run that completes must have met a
falsy continuation token somewhere along the page chain. -/
theorem collectTotal_some_falsy (cap : Option String → Page) :
    ∀ (fuel : Nat) (tok : Option String) (r : RunResult),
    collectAux (okCap cap) fuel tok [] [] = some r →
    ∃ k, tokenFalsy (orbitFrom cap tok k).nextPageToken = true := by
  intro fuel
  induction fuel with
  | zero => intro tok r h; exact absurd h (by simp [collectAux])
  | succ fuel ih =>
    intro tok r h
    simp only [collectAux, okCap] at h
    cases hf : tokenFalsy (cap tok).nextPageToken with
    | true => exact ⟨0, hf⟩
    | false =>
      simp only [hf, Bool.false_eq_true, if_false] at h
      rw [collectAux_acc] at h
      cases h2 : collectAux (okCap cap) fuel (cap tok).nextPageToken [] [] with
      | none => rw [h2] at h; exact absurd h (by simp)
      | some r0 =>
        obtain ⟨k, hk⟩ := ih (cap tok).nextPageToken r0 h2
        exact ⟨k + 1, by rw [orbitFrom_succ_shift]; exact hk⟩

/-- Against a never-failing capability, a falsy continuation token at position
`k` of the page chain lets the run complete within `k + 1` calls. -/
theorem falsy_collectTotal_some (cap : Option String → Page) :
    ∀ (k : Nat) (tok : Option String),
    tokenFalsy (orbitFrom cap tok k).nextPageToken = true →
    ∃ r, collectAux (okCap cap) (k + 1) tok [] [] = some r := by
  intro k
  induction k with
  | zero =>
    intro tok h
    have h0 : tokenFalsy (cap tok).nextPageToken = true := h
    exact ⟨⟨[] ++ [tok], .ok ([] ++ (cap tok).items)⟩, by simp [collectAux, okCap, h0]⟩
  | succ k ih =>
    intro tok h
    cases hf : tokenFalsy (cap tok).nextPageToken with
    | true =>
      exact ⟨⟨[] ++ [tok], .ok ([] ++ (cap tok).items)⟩, by simp [collectAux, okCap, hf]⟩
    | false =>
      rw [orbitFrom_succ_shift] at h
      obtain ⟨r0, h0⟩ := ih (cap tok).nextPageToken h
      refine ⟨⟨[] ++ [tok] ++ r0.callTokens,
        r0.outcome.map fun l => [] ++ (cap tok).items ++ l⟩, ?_⟩
      rw [collectAux_succ]
      simp only [okCap, hf, Bool.false_eq_true, if_false]
      rw [collectAux_acc, h0]
      rfl

/-! ### Claims -/

/-- C1 (counterexample): as stated, the claim quantifies over pages that
"carry a continuation token", which includes the present-but-empty token
`some ""`.  The loop's stop test is Python falsiness, so a first page with
token `""` ends the run after one call: the claimed result (both pages'
identifiers after two calls) is refuted at `capEmptyTok`. -/
theorem collect_all_pages_claim_counterexample :
    ¬ (∀ (cap : Cap) (front : List Page) (lastP : Page) (fuel : Nat),
        Serves cap none (front ++ [lastP]) →
        (∀ p ∈ front, p.nextPageToken ≠ none) →
        lastP.nextPageToken = none →
        (front ++ [lastP]).length ≤ fuel →
        ∃ r, collect cap fuel = some r ∧
          r.outcome = .ok ((front ++ [lastP]).map Page.items).flatten ∧
          r.callTokens.length = (front ++ [lastP]).length) := by
  intro hclaim
  obtain ⟨r, hr, hout, -⟩ := hclaim capEmptyTok [⟨["a"], some ""⟩] ⟨["b"], none⟩ 2
    ⟨rfl, rfl, trivial⟩ (by decide) rfl (by decide)
  have hrun : collect capEmptyTok 2 = some ⟨[none], .ok ["a"]⟩ := rfl
  rw [hrun] at hr
  obtain rfl : RunResult.mk [none] (.ok ["a"]) = r := Option.some.inj hr
  exact absurd hout (by decide)

/-- C1 (amended): for every sequence of N pages in which pages 1..N-1 each
carry a non-empty continuation token and page N carries none, `collect`
returns exactly the concatenation of all N pages' item-identifier sequences,
in page-arrival order with within-page order preserved, and invokes the
listing capability exactly N times. -/
theorem collect_all_pages_in_order (cap : Cap) (front : List Page) (lastP : Page)
    (fuel : Nat)
    (hs : Serves cap none (front ++ [lastP]))
    (hfront : ∀ p ∈ front, ∃ t, p.nextPageToken = some t ∧ t ≠ "")
    (hlast : lastP.nextPageToken = none)
    (hfuel : (front ++ [lastP]).length ≤ fuel) :
    ∃ r, collect cap fuel = some r ∧
      r.outcome = .ok ((front ++ [lastP]).map Page.items).flatten ∧
      r.callTokens.length = (front ++ [lastP]).length := by
  have hl : tokenFalsy lastP.nextPageToken = true := by rw [hlast]; rfl
  have hf : ∀ p ∈ front, tokenFalsy p.nextPageToken = false := by
    intro p hp
    obtain ⟨t, ht, hne⟩ := hfront p hp
    rw [ht]
    simp [tokenFalsy, hne]
  refine ⟨_, collectAux_serves_run cap lastP hl front none fuel hs hf
    (by simpa using hfuel), rfl, ?_⟩
  simp

/-- C1 (witness): the spec's two-page scenario
`[{items:["a","b"], token:"t1"}, {items:["c"], token:None}]` yields
`["a","b","c"]` after exactly 2 calls. -/
theorem collect_all_pages_in_order_witness :
    ∃ r, collect specCap2 2 = some r ∧
      r.outcome = .ok ["a", "b", "c"] ∧
      r.callTokens.length = 2 :=
  collect_all_pages_in_order specCap2 [⟨["a", "b"], some "t1"⟩] ⟨["c"], none⟩ 2
    ⟨rfl, rfl, trivial⟩
    (fun p hp => by
      obtain rfl : p = ⟨["a", "b"], some "t1"⟩ := List.mem_singleton.mp hp
      exact ⟨"t1", rfl, by decide⟩)
    rfl (by decide)

/-- C2: if the capability serves k-1 pages with truthy tokens and then fails
on call k, `collect` fails with the upstream error, surfaces no identifiers
(the outcome carries no list), and the call log records exactly k calls with
the failing call last — no retry, immediate propagation. -/
theorem collect_error_propagates (cap : Cap) (front : List Page)
    (e : UpstreamError) (fuel : Nat)
    (hs : Serves cap none front)
    (hf : ∀ p ∈ front, tokenFalsy p.nextPageToken = false)
    (herr : cap (chainEnd none front) = .error e)
    (hfuel : front.length + 1 ≤ fuel) :
    collect cap fuel = some ⟨none :: front.map Page.nextPageToken, .error e⟩ ∧
    (none :: front.map Page.nextPageToken).length = front.length + 1 :=
  ⟨collectAux_error_run cap e front none fuel hs hf herr hfuel, by simp⟩

/-- C2 (witness): a capability serving one page `{items:["a"], token:"t"}` and
failing on the second call makes `collect` fail after exactly 2 calls with no
identifiers surfaced. -/
theorem collect_error_propagates_witness :
    collect capErrSecond 2 =
      some ⟨[none, some "t"], .error .upstream⟩ ∧
    ([none, some "t"] : List (Option String)).length = 2 :=
  collect_error_propagates capErrSecond [⟨["a"], some "t"⟩] .upstream 2
    ⟨rfl, trivial⟩ (by decide) rfl (by decide)

/-- C3 (counterexample): a never-failing capability answering every call with
an empty page whose token is the present-but-empty string makes `collect`
terminate after one call, yet no served page ever has an absent token — the
stated "terminates only if a page with no continuation token is returned" is
refuted. -/
theorem collect_termination_claim_counterexample :
    ¬ (∀ cap : Option String → Page,
        (∃ fuel r, collectTotal cap fuel = some r) →
        ∃ k, (orbitPage cap k).nextPageToken = none) := by
  intro hclaim
  obtain ⟨k, hk⟩ := hclaim capConstEmpty ⟨1, ⟨[none], .ok []⟩, rfl⟩
  have hconst : (orbitPage capConstEmpty k).nextPageToken = some "" := by
    cases k <;> rfl
  rw [hconst] at hk
  exact Option.noConfusion hk

/-- C3 (amended): against a never-failing capability, `collect` terminates iff
the chain of served pages eventually carries a falsy (absent or empty)
continuation token; the loop imposes no iteration bound of its own, so a
capability whose every answer carries a truthy token causes non-termination
(the run yields no result at any fuel). -/
theorem collect_terminates_iff_falsy_token (cap : Option String → Page) :
    ((∃ fuel r, collectTotal cap fuel = some r) ↔
      (∃ k, tokenFalsy (orbitPage cap k).nextPageToken = true)) ∧
    ((∀ tok, tokenFalsy (cap tok).nextPageToken = false) →
      ∀ fuel, collectTotal cap fuel = none) := by
  constructor
  · constructor
    · rintro ⟨fuel, r, h⟩
      exact collectTotal_some_falsy cap fuel none r h
    · rintro ⟨k, hk⟩
      obtain ⟨r, hr⟩ := falsy_collectTotal_some cap k none hk
      exact ⟨k + 1, r, hr⟩
  · intro hall fuel
    cases h : collectTotal cap fuel with
    | none => rfl
    | some r =>
      obtain ⟨k, hk⟩ := collectTotal_some_falsy cap fuel none r h
      have hfalse : tokenFalsy (orbitFrom cap none k).nextPageToken = false := by
        cases k with
        | zero => exact hall none
        | succ k => exact hall (orbitFrom cap none k).nextPageToken
      rw [hfalse] at hk
      exact Bool.noConfusion hk

/-- C4: in every completed run the first call passes no continuation token,
and every subsequent call passes exactly the token returned by the page of the
immediately preceding call; the call log is a strict sequence, so no call is
issued before the previous page's token is known. -/
theorem collect_call_tokens_chain (cap : Cap) (fuel : Nat) (r : RunResult)
    (h : collect cap fuel = some r) :
    r.callTokens.head? = some none ∧
    ∀ i (hi : i < r.callTokens.length - 1),
      ∃ p, cap (r.callTokens.get ⟨i, by omega⟩) = .ok p ∧
        r.callTokens.get ⟨i + 1, by omega⟩ = p.nextPageToken := by
  obtain ⟨hne, hhead, hchain, -⟩ := collectAux_shape cap fuel none r h
  refine ⟨hhead, ?_⟩
  intro i hi
  obtain ⟨p, hp, -, hnext⟩ := List.chain'_iff_get.mp hchain i hi
  exact ⟨p, hp, hnext⟩

/-- C4 (witness): in the two-call run against the spec scenario capability,
the first call passes no token and the second passes the first page's token. -/
theorem collect_call_tokens_chain_witness :
    (RunResult.mk [none, some "t1"] (.ok ["a", "b", "c"])).callTokens.head? =
      some none ∧
    ∀ i (hi : i <
      (RunResult.mk [none, some "t1"]
        (.ok ["a", "b", "c"])).callTokens.length - 1),
      ∃ p, specCap2
          ((RunResult.mk [none, some "t1"]
            (.ok ["a", "b", "c"])).callTokens.get ⟨i, by omega⟩) = .ok p ∧
        (RunResult.mk [none, some "t1"]
          (.ok ["a", "b", "c"])).callTokens.get ⟨i + 1, by omega⟩ =
          p.nextPageToken :=
  collect_call_tokens_chain specCap2 2
    ⟨[none, some "t1"], .ok ["a", "b", "c"]⟩ rfl

/-- C5: collect never deduplicates — in a completed run each identifier occurs
in the result exactly as many times as it occurs across all served pages
(once per occurrence). -/
theorem collect_preserves_duplicates (cap : Cap) (front : List Page)
    (lastP : Page) (fuel : Nat)
    (hs : Serves cap none (front ++ [lastP]))
    (hf : ∀ p ∈ front, tokenFalsy p.nextPageToken = false)
    (hl : tokenFalsy lastP.nextPageToken = true)
    (hfuel : front.length + 1 ≤ fuel) :
    ∃ l, collect cap fuel =
        some ⟨none :: front.map Page.nextPageToken, .ok l⟩ ∧
      ∀ x : String,
        l.count x = ((front ++ [lastP]).map fun p => p.items.count x).sum := by
  refine ⟨_, collectAux_serves_run cap lastP hl front none fuel hs hf hfuel, ?_⟩
  intro x
  rw [List.count_flatten, List.map_map]
  rfl

/-- C5 (witness): two pages both containing `"abc"` yield a result in which
`"abc"` occurs exactly twice. -/
theorem collect_preserves_duplicates_witness :
    ∃ l, collect capAbc 2 = some ⟨[none, some "t"], .ok l⟩ ∧
      ∀ x : String,
        l.count x =
          (([⟨["abc", "x"], some "t"⟩, ⟨["abc"], none⟩] : List Page).map
            fun p => p.items.count x).sum :=
  collect_preserves_duplicates capAbc [⟨["abc", "x"], some "t"⟩]
    ⟨["abc"], none⟩ 2 ⟨rfl, rfl, trivial⟩ (by decide) rfl (by decide)

/-- C6: if the first page returned carries no continuation token, `collect`
invokes the capability exactly once (call log `[none]`) and returns exactly
that page's item identifiers. -/
theorem collect_single_page (cap : Cap) (p : Page) (fuel : Nat)
    (hcap : cap none = .ok p) (hnone : p.nextPageToken = none)
    (hfuel : 1 ≤ fuel) :
    collect cap fuel = some ⟨[none], .ok p.items⟩ := by
  have hl : tokenFalsy p.nextPageToken = true := by rw [hnone]; rfl
  have h := collectAux_serves_run cap p hl [] none fuel ⟨hcap, trivial⟩
    (by simp) (by simpa using hfuel)
  simpa [collect] using h

/-- C6 (witness): the spec scenario `pages = [{items:[], token:None}]` yields
`[]` after exactly one call. -/
theorem collect_single_page_witness :
    collect capSingleEmpty 1 = some ⟨[none], .ok []⟩ :=
  collect_single_page capSingleEmpty ⟨[], none⟩ 1 rfl rfl (by decide)

/-- C7 (counterexample): the claim says a present continuation token always
yields a further FETCHING step.  A page whose token is present but empty ends
the run instead (the stop test is falsiness), refuted at `capNineEmpty`:
its one-call run receives token `some ""` yet makes no second call. -/
theorem collect_transitions_claim_counterexample :
    ¬ (∀ (cap : Cap) (fuel : Nat) (r : RunResult), collect cap fuel = some r →
        ∀ i (hi : i < r.callTokens.length) (p : Page),
          cap (r.callTokens.get ⟨i, hi⟩) = .ok p →
          ∀ t, p.nextPageToken = some t →
            ∃ hj : i + 1 < r.callTokens.length,
              r.callTokens.get ⟨i + 1, hj⟩ = some t) := by
  intro hclaim
  obtain ⟨hj, -⟩ := hclaim capNineEmpty 1 ⟨[none], .ok ["x"]⟩ rfl 0 (by decide)
    ⟨["x"], some ""⟩ rfl "" rfl
  exact absurd hj (by decide)

/-- C7 (amended): once `collect` receives a page whose continuation token is
falsy (absent or empty), it never invokes the capability again — that call is
the run's last, so DONE is terminal; and a received page with a truthy
(present non-empty) token always leads to a further call passing exactly that
token. -/
theorem collect_transitions (cap : Cap) (fuel : Nat) (r : RunResult)
    (h : collect cap fuel = some r)
    (i : Nat) (hi : i < r.callTokens.length) (p : Page)
    (hp : cap (r.callTokens.get ⟨i, hi⟩) = .ok p) :
    (tokenFalsy p.nextPageToken = true → i + 1 = r.callTokens.length) ∧
    (tokenFalsy p.nextPageToken = false →
      ∃ hj : i + 1 < r.callTokens.length,
        r.callTokens.get ⟨i + 1, hj⟩ = p.nextPageToken) := by
  obtain ⟨hne, -, hchain, lastTok, hlast, hdisj⟩ :=
    collectAux_shape cap fuel none r h
  by_cases hj : i + 1 < r.callTokens.length
  · obtain ⟨p2, hp2, hf2, hn2⟩ := List.chain'_iff_get.mp hchain i (by omega)
    have hpp : p2 = p := by
      have := hp2.symm.trans hp
      exact Except.ok.inj this
    rw [hpp] at hf2 hn2
    constructor
    · intro hfal
      rw [hfal] at hf2
      exact Bool.noConfusion hf2
    · intro _
      exact ⟨hj, hn2⟩
  · have hieq : i = r.callTokens.length - 1 := by omega
    subst hieq
    have hgl : r.callTokens.get ⟨r.callTokens.length - 1, hi⟩ = lastTok := by
      rw [List.get_eq_getElem, ← List.getLast_eq_getElem r.callTokens hne]
      rw [List.getLast?_eq_getLast r.callTokens hne] at hlast
      exact Option.some.inj hlast
    rw [hgl] at hp
    rcases hdisj with ⟨e, hce, -⟩ | ⟨p2, hcp, hfp2, -⟩
    · rw [hce] at hp
      exact Except.noConfusion hp
    · have hpp : p2 = p := by
        have := hcp.symm.trans hp
        exact Except.ok.inj this
      rw [hpp] at hfp2
      constructor
      · intro _
        omega
      · intro hff
        rw [hff] at hfp2
        exact Bool.noConfusion hfp2

/-- C7 (witness): in the spec scenario run, the first page's truthy token
`"t1"` leads to a second call passing `some "t1"`, and were its token falsy
the first call would have been the last. -/
theorem collect_transitions_witness :
    (tokenFalsy (Page.mk ["a", "b"] (some "t1")).nextPageToken = true →
      0 + 1 =
        (RunResult.mk [none, some "t1"]
          (.ok ["a", "b", "c"])).callTokens.length) ∧
    (tokenFalsy (Page.mk ["a", "b"] (some "t1")).nextPageToken = false →
      ∃ hj : 0 + 1 <
          (RunResult.mk [none, some "t1"]
            (.ok ["a", "b", "c"])).callTokens.length,
        (RunResult.mk [none, some "t1"]
          (.ok ["a", "b", "c"])).callTokens.get ⟨0 + 1, hj⟩ =
          (Page.mk ["a", "b"] (some "t1")).nextPageToken) :=
  collect_transitions specCap2 2 ⟨[none, some "t1"], .ok ["a", "b", "c"]⟩ rfl
    0 (by decide) ⟨["a", "b"], some "t1"⟩ rfl

/-- C8: the `video_ids` accumulator and the call log are created fresh per
invocation and only grow during collection: a run started from any accumulator
state equals the fresh-state run with that state prefixed, so the value handed
back is the complete accumulation and nothing outside the run is read or
written (the embedding is a pure function of the supplied capability). -/
theorem collect_accumulator_fresh_monotone (cap : Cap) (fuel : Nat)
    (tok : Option String) (acc : List String) (calls : List (Option String)) :
    collectAux cap fuel tok acc calls =
      (collectAux cap fuel tok [] []).map fun r =>
        ⟨calls ++ r.callTokens, r.outcome.map fun l => acc ++ l⟩ :=
  collectAux_acc cap fuel tok acc calls

/-- C9: a page whose continuation token is present but equal to the empty
string is treated exactly like a page with no token — the run stops after that
page with a single-call log (so the empty token is never passed to a further
call), and the outcome equals that of a capability serving the same items
with no token at all. -/
theorem collect_empty_token_like_none (capA capB : Cap) (tok : Option String)
    (page : Page) (fuel : Nat)
    (hcap : capA tok = .ok page) (hemp : page.nextPageToken = some "")
    (hcapB : capB tok = .ok ⟨page.items, none⟩) (hfuel : 1 ≤ fuel) :
    collectAux capA fuel tok [] [] = some ⟨[tok], .ok page.items⟩ ∧
    collectAux capB fuel tok [] [] = some ⟨[tok], .ok page.items⟩ := by
  obtain ⟨f, rfl⟩ : ∃ f, fuel = f + 1 := ⟨fuel - 1, by omega⟩
  constructor
  · rw [collectAux_succ, hcap]
    simp [tokenFalsy, hemp]
  · rw [collectAux_succ, hcapB]
    simp [tokenFalsy]

/-- C9 (witness): a single page `{items:["x"], token:""}` stops the run after
one call with result `["x"]`, identically to `{items:["x"], token:None}`. -/
theorem collect_empty_token_like_none_witness :
    collectAux capNineEmpty 1 none [] [] = some ⟨[none], .ok ["x"]⟩ ∧
    collectAux capNineNone 1 none [] [] = some ⟨[none], .ok ["x"]⟩ :=
  collect_empty_token_like_none capNineEmpty capNineNone none
    ⟨["x"], some ""⟩ 1 rfl rfl rfl (by decide)

/-- C10: `collect` is deterministic — its output is a function of the pages
served along the token chain, so two capabilities (each a pure function from
token to page) serving the same page sequence produce identical identifier
sequences and identical call logs. -/
theorem collect_depends_only_on_pages (capA capB : Cap) (front : List Page)
    (lastP : Page) (fuel : Nat)
    (hA : Serves capA none (front ++ [lastP]))
    (hB : Serves capB none (front ++ [lastP]))
    (hf : ∀ p ∈ front, tokenFalsy p.nextPageToken = false)
    (hl : tokenFalsy lastP.nextPageToken = true)
    (hfuel : front.length + 1 ≤ fuel) :
    collect capA fuel = collect capB fuel := by
  show collectAux capA fuel none [] [] = collectAux capB fuel none [] []
  rw [collectAux_serves_run capA lastP hl front none fuel hA hf hfuel,
    collectAux_serves_run capB lastP hl front none fuel hB hf hfuel]

/-- C10 (witness): `specCap2` and `specCap2b` differ as functions (the latter
fails on unreached tokens) but serve the same two pages along the chain, and
their runs coincide. -/
theorem collect_depends_only_on_pages_witness :
    collect specCap2 2 = collect specCap2b 2 :=
  collect_depends_only_on_pages specCap2 specCap2b
    [⟨["a", "b"], some "t1"⟩] ⟨["c"], none⟩ 2
    ⟨rfl, rfl, trivial⟩ ⟨rfl, by decide, trivial⟩ (by decide) rfl (by decide)

end PaginatedCollector
